import Mathlib

/-!
# Gav-Autograder core: shallow embedding and verification

This file embeds the grading core of `autograder/models.py` (the
compile–build–execute–compare pipeline, its result cache and its
invalidation rules) as executable Lean definitions, and settles the
specification claims against them.

Embedding conventions:

* Database rows (`TestCase`, `TestOutput`, the fields of `Submission`
  that the core touches) are Lean structures; the `TestOutput` table is
  a `List TestOutput` inside an explicit state record `St`.
* Filesystem and docker resources are abstracted into `St`:
  `contexts` lists the submission ids whose `context-<pk>` working
  directory currently exists, `images` those whose
  `gav-autograder/submission-<pk>` image currently exists, and three
  counters describe the container population (created-and-not-removed,
  started, still-running-because-hung).
* The external toolchain and engine behaviour of the submission's
  current source is an oracle `Behavior`: whether `g++` succeeds within
  its 2 s budget, whether `client.images.build` succeeds, and for each
  test case what the student program does inside the container
  (terminate with some stdout within the 5 s `wait` budget, or hang).
* Python exceptions are `Except`; the error carries the state at the
  moment of the raise, since side effects performed before the raise
  survive it.  `container.wait(timeout=5)` in docker-py raises a
  read-timeout error when the container has not exited after the given
  number of seconds; it never stops or removes the container itself.
-/

namespace Autograder

/-- Primary key of a `Submission` row. -/
abbrev SubId := Nat

/-- Primary key of a `TestCase` row. -/
abbrev TcId := Nat

/-- A `TestCase` row: `assignment` foreign key is implicit in the list of
test cases handed to each operation (`self.assignment.testcase_set.all()`). -/
structure TestCase where
  id : TcId
  input : String
  output : String
  deriving Repr, DecidableEq

/-- A `TestOutput` row (the spec's CachedResult): a `(submission, testcase)`
pair together with the captured output text.  The model declares no
uniqueness constraint on the pair, exactly as `models.py` does not. -/
structure TestOutput where
  submission : SubId
  testcase : TcId
  output : String
  deriving Repr, DecidableEq

/-- What the student program of the submission's current source does when
one test case is executed in its container: exit within the 5 s wait
budget having produced `output`, or still be running when the budget
expires. -/
inductive ExecOutcome where
  | finished (output : String)
  | hang
  deriving Repr, DecidableEq

/-- Oracle for the submission's current source artifact and the engine:
`compileOk` is whether `g++` exits 0 within its 2 s budget (false covers
non-zero exit, compiler timeout and compiler crash, all caught by the bare
`except:`), `buildOk` whether `client.images.build` succeeds, and `exec tc`
the behaviour of the compiled program on test case `tc`'s input file. -/
structure Behavior where
  compileOk : Bool
  buildOk : Bool
  exec : TcId → ExecOutcome

/-- The mutable world the core touches. -/
structure St where
  /-- The `TestOutput` table. -/
  outputs : List TestOutput
  /-- Submission ids whose `context-<pk>` working directory exists. -/
  contexts : List SubId
  /-- Submission ids whose `gav-autograder/submission-<pk>` image exists. -/
  images : List SubId
  /-- Containers created and not (yet) removed. -/
  containersLive : Nat
  /-- Containers ever started (total count). -/
  containersStarted : Nat
  /-- Containers whose program is still executing: started, hit the wait
  timeout, and never stopped or killed. -/
  containersRunning : Nat
  deriving Repr, DecidableEq

/-- Python exceptions that can escape the core. -/
inductive Err where
  /-- Raised by `os.makedirs(context_path)` when the directory is already present. -/
  | fileExists
  /-- Raised when `client.images.build` fails (the spec's BuildFailure). -/
  | buildFail
  /-- Raised by `container.wait(timeout=5)` as its read-timeout error. -/
  | waitTimeout
  /-- Raised by `client.containers.create(None, ...)` or
  `client.images.remove(None)`: an operation was handed `image_tag = None`. -/
  | noImage
  /-- Raised when `self.testoutput_set.get(testcase=...)` finds more than one row. -/
  | multipleObjects
  deriving Repr, DecidableEq

/-- Result type of a stateful operation: on a normal return the value and
the final state, on a raise the exception and the state at the raise. -/
abbrev Res (α : Type) := Except (Err × St) (α × St)

/-- The fields of a `Submission` row the core reads or writes. -/
structure Submission where
  pk : SubId
  compiles : Bool
  deriving Repr, DecidableEq

/-! ## Result Comparator (`Submission.test_results`, lines 257–271) -/

/-- One entry of the annotated actual output: the dict
`{'char': ..., 'incorrect': ..., 'newline': ...}` built per character. -/
structure CharAnn where
  char : Char
  incorrect : Bool
  newline : Bool
  deriving Repr, DecidableEq, Inhabited

/-- One per-test-case result dict. -/
structure TestResult where
  passed : Bool
  input : String
  output : List CharAnn
  missing_output : Int
  deriving Repr, DecidableEq

/-- The value of the `test_results` property. -/
structure Results where
  compiles : Bool
  tests : List TestResult
  deriving Repr, DecidableEq

/-- The per-character annotation list comprehension
`[{'char': test_output[i], 'incorrect': (i >= len(tc.output)) or
(test_output[i] != tc.output[i]), 'newline': test_output[i] == '\n'}
for i in range(len(test_output))]`, over the character lists of the two
strings. -/
def annotate (actual expected : List Char) : List CharAnn :=
  (List.range actual.length).map fun i =>
    { char := actual.getD i default
      incorrect := decide (expected.length ≤ i) || decide (actual.getD i default ≠ expected.getD i default)
      newline := decide (actual.getD i default = '\n') }

/-- The result dict built for one test case from the captured output
(`models.py` lines 257–271). -/
def mkResult (tc : TestCase) (test_output : String) : TestResult :=
  { passed := decide (test_output = tc.output)
    input := tc.input
    output := annotate test_output.toList tc.output.toList
    missing_output := (tc.output.length : Int) - (test_output.length : Int) }

/-! ## Compiler Stage and Image Builder (`Submission.docker_prep`, lines 121–148) -/

/-- Model of `Submission.docker_prep`: create the working directory (`os.makedirs`
raises if it already exists), compile with a 2 s budget (any failure is
caught, the directory is removed with `shutil.rmtree` and `None` is
returned), then copy the Dockerfile, write one input file per test case
(writes inside the existing directory, not modelled separately) and build
the image `gav-autograder/submission-<pk>`, returning its tag.  A build
failure raises and is not caught, leaving the working directory behind. -/
def docker_prep (pk : SubId) (beh : Behavior) (st : St) : Res (Option SubId) :=
  if pk ∈ st.contexts then
    .error (.fileExists, st)
  else
    let st1 : St := { st with contexts := pk :: st.contexts }
    if beh.compileOk then
      if beh.buildOk then
        .ok (some pk, { st1 with images := pk :: st1.images })
      else
        .error (.buildFail, st1)
    else
      .ok (none, { st1 with contexts := st1.contexts.erase pk })

/-! ## Execution Sandbox (`Submission.single_test`, lines 174–208) -/

/-- Model of `Submission.single_test`: create the container (raises if the image
tag is `None`), start it, `wait(timeout=5)` — which raises a read-timeout
error if the program is still running after 5 s, with no `stop`/`kill`
and no `remove` on that path — then capture the logs, remove the
container, and create the `TestOutput` row.  Returns the captured
output. -/
def single_test (pk : SubId) (beh : Behavior) (image_tag : Option SubId)
    (tc : TestCase) (st : St) : Res String :=
  match image_tag with
  | none => .error (.noImage, st)
  | some _ =>
    -- container created, then started
    let st1 : St := { st with
      containersLive := st.containersLive + 1
      containersStarted := st.containersStarted + 1 }
    match beh.exec tc.id with
    | .hang =>
      -- wait(timeout=5) raises; the container keeps running and is
      -- neither stopped nor removed; no logs are read, no row created
      .error (.waitTimeout, { st1 with containersRunning := st1.containersRunning + 1 })
    | .finished out =>
      -- wait returned, logs captured, container removed, row created
      .ok (out, { st1 with
        containersLive := st1.containersLive - 1
        outputs := st1.outputs ++ [⟨pk, tc.id, out⟩] })

/-- The `for testcase in self.assignment.testcase_set.all(): self.single_test(...)`
loop of `full_test` (lines 166–167): sequential, an exception aborts it. -/
def run_all_tests (pk : SubId) (beh : Behavior) (image_tag : Option SubId) :
    List TestCase → St → Res Unit
  | [], st => .ok ((), st)
  | tc :: rest, st =>
    match single_test pk beh image_tag tc st with
    | .error e => .error e
    | .ok (_, st') => run_all_tests pk beh image_tag rest st'

/-- Model of `Submission.docker_cleanup` (lines 210–216): remove the image, then
delete the working directory.  (Both underlying calls raise if the
resource is absent; every call site reaches this with both present.) -/
def docker_cleanup (pk : SubId) (st : St) : St :=
  { st with images := st.images.erase pk, contexts := st.contexts.erase pk }

/-! ## Eager full evaluation (`Submission.full_test`, lines 150–172) -/

/-- Model of `Submission.full_test`: delete all of this submission's `TestOutput`
rows, get a docker client, run `docker_prep`; if it returned a tag, run
every test case and then `docker_cleanup`.  Returns
`image_tag is not None`, i.e. whether the source compiled. -/
def full_test (pk : SubId) (beh : Behavior) (tcs : List TestCase) (st : St) :
    Res Bool :=
  let st0 : St := { st with outputs := st.outputs.filter fun r => r.submission ≠ pk }
  match docker_prep pk beh st0 with
  | .error e => .error e
  | .ok (none, st1) => .ok (false, st1)
  | .ok (some img, st1) =>
    match run_all_tests pk beh (some img) tcs st1 with
    | .error e => .error e
    | .ok (_, st2) => .ok (true, docker_cleanup pk st2)

/-- Model of `Submission.save` (lines 218–230): save the row, then unless
`run_tests` was passed as `False`, set `compiles` from `full_test()` and
persist that field.  (The follow-up `super().save(update_fields=['compiles'])`
fires the `pre_save` signal with `update_fields = ['compiles']`, on which
`move_or_delete_submission_file` does nothing.) -/
def save (s : Submission) (beh : Behavior) (tcs : List TestCase)
    (run_tests : Bool) (st : St) : Res Submission :=
  if run_tests then
    match full_test s.pk beh tcs st with
    | .error e => .error e
    | .ok (ok, st') => .ok ({ s with compiles := ok }, st')
  else
    .ok (s, st)

/-! ## Lazy on-demand evaluation (`Submission.test_results`, lines 232–278) -/

/-- The rows `self.testoutput_set.get(testcase=testcase)` selects from. -/
def cached_rows (pk : SubId) (tcId : TcId) (st : St) : List TestOutput :=
  st.outputs.filter fun r => decide (r.submission = pk) && decide (r.testcase = tcId)

/-- The `for testcase in self.assignment.testcase_set.all()` loop of
`test_results` (lines 244–273).  The accumulator mirrors the two local
variables: `client = none` means `docker_client is None`; `client = some
img` means a client was obtained and `docker_prep` returned `img` (which
is itself `none` when the lazy recompile failed).  A cache hit uses the
row's output; `.get` on zero rows raises `DoesNotExist`, which is caught
and answered by a lazy prep (first miss only) plus `single_test`; `.get`
on more than one row raises `MultipleObjectsReturned`, which is not
caught. -/
def test_results_loop (pk : SubId) (beh : Behavior) :
    List TestCase → Option (Option SubId) → St → Res (List TestResult × Option (Option SubId))
  | [], client, st => .ok (([], client), st)
  | tc :: rest, client, st =>
    match cached_rows pk tc.id st with
    | [r] =>
      match test_results_loop pk beh rest client st with
      | .error e => .error e
      | .ok ((trs, client'), st') => .ok ((mkResult tc r.output :: trs, client'), st')
    | [] =>
      let prep : Res (Option SubId) :=
        match client with
        | some img => .ok (img, st)
        | none => docker_prep pk beh st
      match prep with
      | .error e => .error e
      | .ok (img, st1) =>
        match single_test pk beh img tc st1 with
        | .error e => .error e
        | .ok (out, st2) =>
          match test_results_loop pk beh rest (some img) st2 with
          | .error e => .error e
          | .ok ((trs, client'), st3) => .ok ((mkResult tc out :: trs, client'), st3)
    | _ :: _ :: _ => .error (.multipleObjects, st)

/-- The `test_results` property: report `compiles` and short-circuit with
an empty test list when the saved submission is known not to compile;
otherwise run the lazy loop and, if a docker client was ever obtained,
`docker_cleanup` at the end (which raises on `image_tag = None`). -/
def test_results (s : Submission) (adding : Bool) (beh : Behavior)
    (tcs : List TestCase) (st : St) : Res Results :=
  if !adding && !s.compiles then
    .ok ({ compiles := s.compiles, tests := [] }, st)
  else
    match test_results_loop s.pk beh tcs none st with
    | .error e => .error e
    | .ok ((trs, client), st') =>
      match client with
      | none => .ok ({ compiles := s.compiles, tests := trs }, st')
      | some (some _) => .ok ({ compiles := s.compiles, tests := trs }, docker_cleanup s.pk st')
      | some none => .error (.noImage, st')

/-! ## Invalidation triggers (signal receivers) -/

/-- Model of `delete_obsolete_testoutputs` (lines 72–81): on every save of an
existing `TestCase` row, delete the `TestOutput` rows whose `testcase`
foreign key references it.  (On creation, `_state.adding` short-circuits
the receiver; the committed effect on the table is modelled directly.) -/
def testcase_edit_invalidate (tcId : TcId) (st : St) : St :=
  { st with outputs := st.outputs.filter fun r => r.testcase ≠ tcId }

/-- The source-replacement flow: `instance.save(update_fields=['source_file'])`
(the admin form's path, `forms.py` line 164).  The `pre_save` receiver
`move_or_delete_submission_file` deletes the old file from disk (pure
filesystem, outside `St`); the overridden `save` then runs `full_test`
with the new source's behaviour `newBeh` — `run_tests` defaults to true —
and overwrites `compiles` with its return value. -/
def replace_source (s : Submission) (newBeh : Behavior) (tcs : List TestCase)
    (st : St) : Res Submission :=
  save s newBeh tcs true st

/-! ## Projections and concrete fixtures -/

/-- The state at the end of an operation, whether it returned or raised
(side effects performed before a raise survive it). -/
def resState {α : Type} : Res α → St
  | .error (_, st) => st
  | .ok (_, st) => st

/-- An empty world: no cached rows, no working directories, no images,
no containers. -/
def stEmpty : St := ⟨[], [], [], 0, 0, 0⟩

/-- A sample test case. -/
def tcA : TestCase := ⟨1, "3 4\n", "7\n"⟩

/-- The spec's scenario-D test case: expected output `"5\n"`. -/
def tcD : TestCase := ⟨2, "", "5\n"⟩

/-- A source that compiles, builds, and answers `"7\n"` within the
wait budget on every test case. -/
def behOk : Behavior := ⟨true, true, fun _ => .finished "7\n"⟩

/-- A source that fails to compile. -/
def behBad : Behavior := ⟨false, true, fun _ => .finished "7\n"⟩

/-- A source that compiles but whose image build fails. -/
def behBuildFail : Behavior := ⟨true, false, fun _ => .finished "7\n"⟩

/-- A source that compiles and builds but loops forever on every test
case (still running when the 5 s wait budget expires). -/
def behHang : Behavior := ⟨true, true, fun _ => .hang⟩

end Autograder

namespace Autograder

/-! ## Structural lemmas about the pipeline -/

/-- Handed `image_tag = None`, `single_test` raises before any side
effect. -/
theorem single_test_none (pk : SubId) (beh : Behavior) (tc : TestCase) (st : St) :
    single_test pk beh none tc st = .error (.noImage, st) := rfl

/-- Neither working directories nor images are touched by `single_test`. -/
theorem single_test_frames (pk : SubId) (beh : Behavior) (img : Option SubId)
    (tc : TestCase) (st : St) :
    (resState (single_test pk beh img tc st)).contexts = st.contexts ∧
    (resState (single_test pk beh img tc st)).images = st.images := by
  cases img with
  | none => exact ⟨rfl, rfl⟩
  | some j => cases h : beh.exec tc.id <;> simp [single_test, h, resState]

/-- Case analysis on a normal return of `docker_prep`: either the compile
failed, the directory was created and removed again, and no image was
built; or compile and build both succeeded, the directory did not
pre-exist, and directory and image both now exist. -/
theorem docker_prep_ok (pk : SubId) (beh : Behavior) (st : St)
    (img : Option SubId) (st' : St)
    (h : docker_prep pk beh st = .ok (img, st')) :
    (img = none ∧ st' = st ∧ beh.compileOk = false) ∨
    (img = some pk ∧
      st' = { st with contexts := pk :: st.contexts, images := pk :: st.images } ∧
      beh.compileOk = true ∧ beh.buildOk = true ∧ pk ∉ st.contexts) := by
  by_cases hctx : pk ∈ st.contexts
  · simp [docker_prep, hctx] at h
  · cases hc : beh.compileOk with
    | false =>
      simp [docker_prep, hctx, hc] at h
      exact Or.inl ⟨h.1.symm, h.2.symm, rfl⟩
    | true =>
      cases hb : beh.buildOk with
      | false => simp [docker_prep, hctx, hc, hb] at h
      | true =>
        simp [docker_prep, hctx, hc, hb] at h
        exact Or.inr ⟨h.1.symm, h.2.symm, rfl, rfl, hctx⟩

/-- When every test case's program terminates within the wait budget, the
test loop of `full_test` runs them all in order: it creates one
`TestOutput` row per test case and starts one container per test case. -/
theorem run_all_tests_success (pk : SubId) (beh : Behavior) (img : SubId)
    (out : TcId → String) (tcs : List TestCase) :
    ∀ st : St, (∀ tc ∈ tcs, beh.exec tc.id = .finished (out tc.id)) →
      run_all_tests pk beh (some img) tcs st =
        .ok ((), { st with
          outputs := st.outputs ++ tcs.map fun tc => ⟨pk, tc.id, out tc.id⟩,
          containersStarted := st.containersStarted + tcs.length }) := by
  induction tcs with
  | nil => intro st _; simp [run_all_tests]
  | cons tc rest ih =>
    intro st hexec
    have h1 : beh.exec tc.id = .finished (out tc.id) := hexec tc (List.mem_cons_self _ _)
    have hrest : ∀ tc' ∈ rest, beh.exec tc'.id = .finished (out tc'.id) :=
      fun tc' h' => hexec tc' (List.mem_cons_of_mem _ h')
    simp only [run_all_tests, single_test, h1]
    rw [ih _ hrest]
    simp [Nat.add_assoc, Nat.add_comm 1 rest.length]

/-- Facts about a normal return of the test loop: it ran every test case,
starting (and removing) one container each, creating one row per test
case, and touching neither working directories nor images. -/
theorem run_all_tests_ok (pk : SubId) (beh : Behavior) (img : Option SubId)
    (tcs : List TestCase) :
    ∀ (st st' : St) (u : Unit), run_all_tests pk beh img tcs st = .ok (u, st') →
      st'.contexts = st.contexts ∧ st'.images = st.images ∧
      st'.containersLive = st.containersLive ∧
      st'.containersStarted = st.containersStarted + tcs.length ∧
      ∃ new : List TestOutput, st'.outputs = st.outputs ++ new ∧
        new.map TestOutput.testcase = tcs.map TestCase.id ∧
        ∀ r ∈ new, r.submission = pk := by
  induction tcs with
  | nil =>
    intro st st' u h
    simp [run_all_tests] at h
    subst h
    exact ⟨rfl, rfl, rfl, by simp, [], by simp, rfl, by simp⟩
  | cons tc rest ih =>
    intro st st' u h
    cases img with
    | none => simp [run_all_tests, single_test] at h
    | some j =>
      cases hex : beh.exec tc.id with
      | hang => simp [run_all_tests, single_test, hex] at h
      | finished o =>
        simp only [run_all_tests, single_test, hex] at h
        obtain ⟨hc, hi, hl, hs, new, ho, hm, hsub⟩ := ih _ _ u h
        refine ⟨hc, hi, by simpa using hl, by rw [hs]; simp; omega,
          ⟨pk, tc.id, o⟩ :: new, ?_, by simpa using hm, ?_⟩
        · rw [ho]; simp
        · intro r hr
          rcases List.mem_cons.1 hr with h' | h'
          · rw [h']
          · exact hsub r h'

/-- Whether the test loop returns or raises, the only change to the
`TestOutput` table is the appending of rows for (a sublist of) the given
test cases, all owned by this submission. -/
theorem run_all_tests_outputs (pk : SubId) (beh : Behavior) (img : Option SubId)
    (tcs : List TestCase) :
    ∀ st : St, ∃ new : List TestOutput,
      (resState (run_all_tests pk beh img tcs st)).outputs = st.outputs ++ new ∧
      List.Sublist (new.map TestOutput.testcase) (tcs.map TestCase.id) ∧
      ∀ r ∈ new, r.submission = pk := by
  induction tcs with
  | nil => intro st; exact ⟨[], by simp [run_all_tests, resState], by simp, by simp⟩
  | cons tc rest ih =>
    intro st
    cases img with
    | none =>
      exact ⟨[], by simp [run_all_tests, single_test, resState], by simp, by simp⟩
    | some j =>
      cases hex : beh.exec tc.id with
      | hang =>
        exact ⟨[], by simp [run_all_tests, single_test, hex, resState], by simp, by simp⟩
      | finished o =>
        obtain ⟨new, ho, hm, hsub⟩ := ih
          { st with
            containersLive := st.containersLive + 1 - 1
            containersStarted := st.containersStarted + 1
            outputs := st.outputs ++ [⟨pk, tc.id, o⟩] }
        refine ⟨⟨pk, tc.id, o⟩ :: new, ?_, ?_, ?_⟩
        · rw [show resState (run_all_tests pk beh (some j) (tc :: rest) st)
              = resState (run_all_tests pk beh (some j) rest
                { st with
                  containersLive := st.containersLive + 1 - 1
                  containersStarted := st.containersStarted + 1
                  outputs := st.outputs ++ [⟨pk, tc.id, o⟩] }) from by
            simp [run_all_tests, single_test, hex]]
          rw [ho]; simp
        · exact List.Sublist.cons₂ _ (by simpa using hm)
        · intro r hr
          rcases List.mem_cons.1 hr with h' | h'
          · rw [h']
          · exact hsub r h'

/-- A normal return of `single_test` means the program finished within
the wait budget: one container was started and removed again, and exactly
one row — this submission's, for this test case, with the captured
output — was appended to the table. -/
theorem single_test_ok (pk : SubId) (beh : Behavior) (img : Option SubId)
    (tc : TestCase) (st : St) (out : String) (st' : St)
    (h : single_test pk beh img tc st = .ok (out, st')) :
    st'.contexts = st.contexts ∧ st'.images = st.images ∧
    st'.outputs = st.outputs ++ [⟨pk, tc.id, out⟩] ∧
    st'.containersStarted = st.containersStarted + 1 ∧
    st'.containersLive = st.containersLive ∧
    beh.exec tc.id = .finished out := by
  cases img with
  | none => rw [single_test_none] at h; cases h
  | some j =>
    cases hex : beh.exec tc.id with
    | hang => simp [single_test, hex] at h
    | finished o =>
      simp [single_test, hex] at h
      obtain ⟨rfl, rfl⟩ := h
      exact ⟨rfl, rfl, rfl, rfl, by simp, rfl⟩

/-- A raise inside `single_test` leaves the `TestOutput` table, the
working directories and the images untouched (the timeout path has
already created and started a container that it never removes). -/
theorem single_test_err (pk : SubId) (beh : Behavior) (img : Option SubId)
    (tc : TestCase) (st : St) (e : Err) (st' : St)
    (h : single_test pk beh img tc st = .error (e, st')) :
    st'.outputs = st.outputs ∧ st'.contexts = st.contexts ∧ st'.images = st.images := by
  cases img with
  | none =>
    rw [single_test_none] at h
    simp only [Except.error.injEq, Prod.mk.injEq] at h
    rw [← h.2]
    exact ⟨rfl, rfl, rfl⟩
  | some j =>
    cases hex : beh.exec tc.id with
    | finished o => simp [single_test, hex] at h
    | hang =>
      simp [single_test, hex] at h
      rw [← h.2]
      exact ⟨rfl, rfl, rfl⟩

/-- A raise inside `docker_prep` leaves the `TestOutput` table untouched. -/
theorem docker_prep_err (pk : SubId) (beh : Behavior) (st : St) (e : Err) (st' : St)
    (h : docker_prep pk beh st = .error (e, st')) :
    st'.outputs = st.outputs := by
  by_cases hctx : pk ∈ st.contexts
  · simp [docker_prep, hctx] at h
    rw [← h.2]
  · cases hc : beh.compileOk with
    | false => simp [docker_prep, hctx, hc] at h
    | true =>
      cases hb : beh.buildOk with
      | true => simp [docker_prep, hctx, hc, hb] at h
      | false =>
        simp [docker_prep, hctx, hc, hb] at h
        rw [← h.2]

/-- The fully successful eager evaluation: compile and build succeed and
every program terminates within the wait budget.  `full_test` then
returns `true`, replaces this submission's rows with one fresh row per
test case, starts one container per test case, and removes both the
working directory and the image it created. -/
theorem full_test_success (pk : SubId) (beh : Behavior) (out : TcId → String)
    (tcs : List TestCase) (st : St)
    (hc : beh.compileOk = true) (hb : beh.buildOk = true)
    (hexec : ∀ tc ∈ tcs, beh.exec tc.id = .finished (out tc.id))
    (hctx : pk ∉ st.contexts) :
    full_test pk beh tcs st = .ok (true,
      { st with
        outputs := st.outputs.filter (fun r => r.submission ≠ pk)
          ++ tcs.map fun tc => ⟨pk, tc.id, out tc.id⟩,
        containersStarted := st.containersStarted + tcs.length }) := by
  have hprep : docker_prep pk beh
      { st with outputs := st.outputs.filter fun r => r.submission ≠ pk } =
      .ok (some pk,
        { st with
          outputs := st.outputs.filter fun r => r.submission ≠ pk
          contexts := pk :: st.contexts
          images := pk :: st.images }) := by
    simp [docker_prep, hctx, hc, hb]
  simp only [full_test, hprep]
  rw [run_all_tests_success pk beh pk out tcs _ hexec]
  simp [docker_cleanup]

/-- Case analysis on a normal return of `full_test`: the returned Boolean
is exactly the fresh compile outcome; working directories and images are
restored; containers were started only if the compile succeeded (one per
test case, covering all of them); and this submission's old rows were
replaced by the fresh ones (none, when the compile failed). -/
theorem full_test_ok_cases (pk : SubId) (beh : Behavior) (tcs : List TestCase)
    (st : St) (b : Bool) (st' : St)
    (h : full_test pk beh tcs st = .ok (b, st')) :
    b = beh.compileOk ∧
    st'.contexts = st.contexts ∧ st'.images = st.images ∧
    st'.containersStarted = st.containersStarted + (if b then tcs.length else 0) ∧
    ∃ new : List TestOutput,
      st'.outputs = st.outputs.filter (fun r => r.submission ≠ pk) ++ new ∧
      (∀ r ∈ new, r.submission = pk) ∧
      (b = true → new.map TestOutput.testcase = tcs.map TestCase.id) ∧
      (b = false → new = []) := by
  simp only [full_test] at h
  split at h
  · exact absurd h (by simp)
  case _ st1 heq =>
    rcases docker_prep_ok _ _ _ _ _ heq with ⟨_, rfl, hcf⟩ | ⟨himg, _⟩
    · simp only [Except.ok.injEq, Prod.mk.injEq] at h
      obtain ⟨rfl, rfl⟩ := h
      exact ⟨hcf.symm, rfl, rfl, by simp, [], by simp, by simp, by simp, by simp⟩
    · exact absurd himg (by simp)
  case _ img st1 heq =>
    split at h
    · exact absurd h (by simp)
    case _ u st2 hr =>
      rcases docker_prep_ok _ _ _ _ _ heq with ⟨himg, _⟩ | ⟨himg, rfl, hct, hbt, hnotin⟩
      · exact absurd himg (by simp)
      · obtain rfl : img = pk := by injection himg
        simp only [Except.ok.injEq, Prod.mk.injEq] at h
        obtain ⟨rfl, rfl⟩ := h
        obtain ⟨h2c, h2i, h2l, h2s, new, h2o, h2m, h2sub⟩ := run_all_tests_ok _ _ _ _ _ _ _ hr
        refine ⟨hct.symm, ?_, ?_, ?_, new, ?_, h2sub, fun _ => h2m, by simp⟩
        · simp [docker_cleanup, h2c]
        · simp [docker_cleanup, h2i]
        · simp only [docker_cleanup]
          rw [h2s]
          simp
        · simp only [docker_cleanup]
          rw [h2o]

/-- With test running enabled, `save` reaches the same final state as the
`full_test` it calls, whether that call returns or raises. -/
theorem resState_save (s : Submission) (beh : Behavior) (tcs : List TestCase) (st : St) :
    resState (save s beh tcs true st) = resState (full_test s.pk beh tcs st) := by
  unfold save
  cases h : full_test s.pk beh tcs st with
  | error e => simp [resState]
  | ok p => obtain ⟨b, st'⟩ := p; simp [resState]

/-- Destructuring a normal return of `save` with test running enabled:
`full_test` returned normally, its Boolean became the `compiles` flag,
and its final state is `save`'s final state. -/
theorem save_ok (s : Submission) (beh : Behavior) (tcs : List TestCase) (st : St)
    (s' : Submission) (st' : St) (h : save s beh tcs true st = .ok (s', st')) :
    full_test s.pk beh tcs st = .ok (s'.compiles, st') ∧ s'.pk = s.pk := by
  unfold save at h
  cases hf : full_test s.pk beh tcs st with
  | error e => rw [hf] at h; simp at h
  | ok p =>
    obtain ⟨b, st2⟩ := p
    rw [hf] at h
    simp only [if_true, Except.ok.injEq, Prod.mk.injEq] at h
    obtain ⟨rfl, rfl⟩ := h
    exact ⟨rfl, rfl⟩

/-- An empty lookup against a grown table means the lookup was already
empty against the original table. -/
theorem cached_rows_nil_of_append (pk : SubId) (t : TcId) (st st2 : St)
    (l : List TestOutput) (hout : st2.outputs = st.outputs ++ l)
    (h : cached_rows pk t st2 = []) : cached_rows pk t st = [] := by
  simp only [cached_rows, hout, List.filter_append, List.append_eq_nil] at h
  exact h.1

/-- When every test case has exactly one cached row, the lazy loop is a
pure read: it touches nothing and returns the comparator applied to the
cached outputs, never obtaining a docker client. -/
theorem test_results_loop_all_hits (pk : SubId) (beh : Behavior) (out : TcId → String)
    (tcs : List TestCase) :
    ∀ (client : Option (Option SubId)) (st : St),
      (∀ tc ∈ tcs, cached_rows pk tc.id st = [⟨pk, tc.id, out tc.id⟩]) →
      test_results_loop pk beh tcs client st =
        .ok ((tcs.map fun tc => mkResult tc (out tc.id), client), st) := by
  induction tcs with
  | nil => intro client st _; simp [test_results_loop]
  | cons tc rest ih =>
    intro client st hhit
    have h1 : cached_rows pk tc.id st = [⟨pk, tc.id, out tc.id⟩] :=
      hhit tc (List.mem_cons_self _ _)
    simp only [test_results_loop, h1]
    rw [ih client st fun tc' h' => hhit tc' (List.mem_cons_of_mem _ h')]
    rfl

/-- How a normal return of the lazy loop can relate final to initial
state: either no docker client was ever obtained (or one had been passed
in) and directories and images are untouched, or the loop itself lazily
prepped, leaving exactly one new working directory and one new image. -/
theorem test_results_loop_frames (pk : SubId) (beh : Behavior) (tcs : List TestCase) :
    ∀ (client : Option (Option SubId)) (st : St) (trs : List TestResult)
      (client' : Option (Option SubId)) (st' : St),
      test_results_loop pk beh tcs client st = .ok ((trs, client'), st') →
      (client' = client ∧ st'.contexts = st.contexts ∧ st'.images = st.images) ∨
      (client = none ∧ client' = some (some pk) ∧
        st'.contexts = pk :: st.contexts ∧ st'.images = pk :: st.images) := by
  induction tcs with
  | nil =>
    intro client st trs client' st' h
    simp only [test_results_loop, Except.ok.injEq, Prod.mk.injEq] at h
    obtain ⟨⟨rfl, rfl⟩, rfl⟩ := h
    exact Or.inl ⟨rfl, rfl, rfl⟩
  | cons tc rest ih =>
    intro client st trs client' st' h
    rcases hcr : cached_rows pk tc.id st with _ | ⟨r, _ | ⟨r2, tail⟩⟩
    · -- cache miss
      cases client with
      | some img0 =>
        simp only [test_results_loop, hcr] at h
        split at h
        · exact absurd h (by simp)
        case _ o st2 hst =>
          split at h
          · exact absurd h (by simp)
          case _ trs0 c0 st0 hrec =>
            simp only [Except.ok.injEq, Prod.mk.injEq] at h
            obtain ⟨⟨rfl, rfl⟩, rfl⟩ := h
            obtain ⟨h2c, h2i, _, _, _, _⟩ := single_test_ok _ _ _ _ _ _ _ hst
            rcases ih _ _ _ _ _ hrec with ⟨rfl, h0c, h0i⟩ | ⟨hno, _⟩
            · exact Or.inl ⟨rfl, by rw [h0c, h2c], by rw [h0i, h2i]⟩
            · exact absurd hno (by simp)
      | none =>
        simp only [test_results_loop, hcr] at h
        split at h
        · exact absurd h (by simp)
        case _ img st1 hprep =>
          split at h
          · exact absurd h (by simp)
          case _ o st2 hst =>
            split at h
            · exact absurd h (by simp)
            case _ trs0 c0 st0 hrec =>
              simp only [Except.ok.injEq, Prod.mk.injEq] at h
              obtain ⟨⟨rfl, rfl⟩, rfl⟩ := h
              obtain ⟨h2c, h2i, _, _, _, _⟩ := single_test_ok _ _ _ _ _ _ _ hst
              rcases docker_prep_ok _ _ _ _ _ hprep with ⟨rfl, rfl, _⟩ | ⟨rfl, rfl, _, _, _⟩
              · rw [single_test_none] at hst; cases hst
              · rcases ih _ _ _ _ _ hrec with ⟨rfl, h0c, h0i⟩ | ⟨hno, _⟩
                · refine Or.inr ⟨rfl, rfl, ?_, ?_⟩
                  · rw [h0c, h2c]
                  · rw [h0i, h2i]
                · exact absurd hno (by simp)
    · -- cache hit
      simp only [test_results_loop, hcr] at h
      split at h
      · exact absurd h (by simp)
      case _ trs0 c0 st0 hrec =>
        simp only [Except.ok.injEq, Prod.mk.injEq] at h
        obtain ⟨⟨rfl, rfl⟩, rfl⟩ := h
        exact ih _ _ _ _ _ hrec
    · -- MultipleObjectsReturned
      simp only [test_results_loop, hcr] at h
      exact absurd h (by simp)

/-- A normal return of the lazy loop appended rows only for (a sublist
of) the given test cases, all owned by this submission, each for a pair
that had no cached row to begin with. -/
theorem test_results_loop_outputs_ok (pk : SubId) (beh : Behavior) (tcs : List TestCase) :
    ∀ (client : Option (Option SubId)) (st : St) (trs : List TestResult)
      (client' : Option (Option SubId)) (st' : St),
      test_results_loop pk beh tcs client st = .ok ((trs, client'), st') →
      ∃ new : List TestOutput, st'.outputs = st.outputs ++ new ∧
        List.Sublist (new.map TestOutput.testcase) (tcs.map TestCase.id) ∧
        ∀ r ∈ new, r.submission = pk ∧ cached_rows pk r.testcase st = [] := by
  induction tcs with
  | nil =>
    intro client st trs client' st' h
    simp only [test_results_loop, Except.ok.injEq, Prod.mk.injEq] at h
    obtain ⟨⟨rfl, rfl⟩, rfl⟩ := h
    exact ⟨[], by simp, by simp, by simp⟩
  | cons tc rest ih =>
    intro client st trs client' st' h
    rcases hcr : cached_rows pk tc.id st with _ | ⟨r, _ | ⟨r2, tail⟩⟩
    · -- cache miss
      cases client with
      | some img0 =>
        simp only [test_results_loop, hcr] at h
        split at h
        · exact absurd h (by simp)
        case _ o st2 hst =>
          split at h
          · exact absurd h (by simp)
          case _ trs0 c0 st0 hrec =>
            simp only [Except.ok.injEq, Prod.mk.injEq] at h
            obtain ⟨⟨rfl, rfl⟩, rfl⟩ := h
            obtain ⟨_, _, h2o, _, _, _⟩ := single_test_ok _ _ _ _ _ _ _ hst
            obtain ⟨new', hout, hsl, hcond⟩ := ih _ _ _ _ _ hrec
            refine ⟨⟨pk, tc.id, o⟩ :: new', ?_, List.Sublist.cons₂ _ (by simpa using hsl), ?_⟩
            · rw [hout, h2o]; simp
            · intro r' hr'
              rcases List.mem_cons.1 hr' with h' | h'
              · subst h'; exact ⟨rfl, hcr⟩
              · obtain ⟨hs, hc⟩ := hcond r' h'
                exact ⟨hs, cached_rows_nil_of_append _ _ _ _ _ h2o hc⟩
      | none =>
        simp only [test_results_loop, hcr] at h
        split at h
        · exact absurd h (by simp)
        case _ img st1 hprep =>
          split at h
          · exact absurd h (by simp)
          case _ o st2 hst =>
            split at h
            · exact absurd h (by simp)
            case _ trs0 c0 st0 hrec =>
              simp only [Except.ok.injEq, Prod.mk.injEq] at h
              obtain ⟨⟨rfl, rfl⟩, rfl⟩ := h
              obtain ⟨_, _, h2o, _, _, _⟩ := single_test_ok _ _ _ _ _ _ _ hst
              obtain ⟨new', hout, hsl, hcond⟩ := ih _ _ _ _ _ hrec
              have hout1 : st1.outputs = st.outputs := by
                rcases docker_prep_ok _ _ _ _ _ hprep with ⟨_, rfl, _⟩ | ⟨_, rfl, _⟩ <;> rfl
              have h2o' : st2.outputs = st.outputs ++ [⟨pk, tc.id, o⟩] := by
                rw [h2o, hout1]
              refine ⟨⟨pk, tc.id, o⟩ :: new', ?_, List.Sublist.cons₂ _ (by simpa using hsl), ?_⟩
              · rw [hout, h2o']; simp
              · intro r' hr'
                rcases List.mem_cons.1 hr' with h' | h'
                · subst h'; exact ⟨rfl, hcr⟩
                · obtain ⟨hs, hc⟩ := hcond r' h'
                  exact ⟨hs, cached_rows_nil_of_append _ _ _ _ _ h2o' hc⟩
    · -- cache hit
      simp only [test_results_loop, hcr] at h
      split at h
      · exact absurd h (by simp)
      case _ trs0 c0 st0 hrec =>
        simp only [Except.ok.injEq, Prod.mk.injEq] at h
        obtain ⟨⟨rfl, rfl⟩, rfl⟩ := h
        obtain ⟨new', hout, hsl, hcond⟩ := ih _ _ _ _ _ hrec
        exact ⟨new', hout, hsl.trans (List.sublist_cons_self _ _), hcond⟩
    · -- MultipleObjectsReturned
      simp only [test_results_loop, hcr] at h
      exact absurd h (by simp)

/-- A raise escaping the lazy loop likewise leaves the table equal to the
initial one plus fresh rows for previously uncached pairs only. -/
theorem test_results_loop_outputs_err (pk : SubId) (beh : Behavior) (tcs : List TestCase) :
    ∀ (client : Option (Option SubId)) (st : St) (e : Err) (st' : St),
      test_results_loop pk beh tcs client st = .error (e, st') →
      ∃ new : List TestOutput, st'.outputs = st.outputs ++ new ∧
        List.Sublist (new.map TestOutput.testcase) (tcs.map TestCase.id) ∧
        ∀ r ∈ new, r.submission = pk ∧ cached_rows pk r.testcase st = [] := by
  induction tcs with
  | nil =>
    intro client st e st' h
    simp [test_results_loop] at h
  | cons tc rest ih =>
    intro client st e st' h
    rcases hcr : cached_rows pk tc.id st with _ | ⟨r, _ | ⟨r2, tail⟩⟩
    · -- cache miss
      cases client with
      | some img0 =>
        simp only [test_results_loop, hcr] at h
        split at h
        case _ e0 hst =>
          obtain ⟨e1, ste⟩ := e0
          simp only [Except.error.injEq, Prod.mk.injEq] at h
          obtain ⟨rfl, rfl⟩ := h
          obtain ⟨ho, _, _⟩ := single_test_err _ _ _ _ _ _ _ hst
          exact ⟨[], by rw [ho]; simp, by simp, by simp⟩
        case _ o st2 hst =>
          split at h
          case _ e0 hrec =>
            obtain ⟨e1, ste⟩ := e0
            simp only [Except.error.injEq, Prod.mk.injEq] at h
            obtain ⟨rfl, rfl⟩ := h
            obtain ⟨_, _, h2o, _, _, _⟩ := single_test_ok _ _ _ _ _ _ _ hst
            obtain ⟨new', hout, hsl, hcond⟩ := ih _ _ _ _ hrec
            refine ⟨⟨pk, tc.id, o⟩ :: new', ?_, List.Sublist.cons₂ _ (by simpa using hsl), ?_⟩
            · rw [hout, h2o]; simp
            · intro r' hr'
              rcases List.mem_cons.1 hr' with h' | h'
              · subst h'; exact ⟨rfl, hcr⟩
              · obtain ⟨hs, hc⟩ := hcond r' h'
                exact ⟨hs, cached_rows_nil_of_append _ _ _ _ _ h2o hc⟩
          case _ trs0 c0 st0 hrec => exact absurd h (by simp)
      | none =>
        simp only [test_results_loop, hcr] at h
        split at h
        case _ e0 hprep =>
          obtain ⟨e1, ste⟩ := e0
          simp only [Except.error.injEq, Prod.mk.injEq] at h
          obtain ⟨rfl, rfl⟩ := h
          have ho := docker_prep_err _ _ _ _ _ hprep
          exact ⟨[], by rw [ho]; simp, by simp, by simp⟩
        case _ img st1 hprep =>
          have hout1 : st1.outputs = st.outputs := by
            rcases docker_prep_ok _ _ _ _ _ hprep with ⟨_, rfl, _⟩ | ⟨_, rfl, _⟩ <;> rfl
          split at h
          case _ e0 hst =>
            obtain ⟨e1, ste⟩ := e0
            simp only [Except.error.injEq, Prod.mk.injEq] at h
            obtain ⟨rfl, rfl⟩ := h
            obtain ⟨ho, _, _⟩ := single_test_err _ _ _ _ _ _ _ hst
            exact ⟨[], by rw [ho, hout1]; simp, by simp, by simp⟩
          case _ o st2 hst =>
            split at h
            case _ e0 hrec =>
              obtain ⟨e1, ste⟩ := e0
              simp only [Except.error.injEq, Prod.mk.injEq] at h
              obtain ⟨rfl, rfl⟩ := h
              obtain ⟨_, _, h2o, _, _, _⟩ := single_test_ok _ _ _ _ _ _ _ hst
              obtain ⟨new', hout, hsl, hcond⟩ := ih _ _ _ _ hrec
              have h2o' : st2.outputs = st.outputs ++ [⟨pk, tc.id, o⟩] := by
                rw [h2o, hout1]
              refine ⟨⟨pk, tc.id, o⟩ :: new', ?_, List.Sublist.cons₂ _ (by simpa using hsl), ?_⟩
              · rw [hout, h2o']; simp
              · intro r' hr'
                rcases List.mem_cons.1 hr' with h' | h'
                · subst h'; exact ⟨rfl, hcr⟩
                · obtain ⟨hs, hc⟩ := hcond r' h'
                  exact ⟨hs, cached_rows_nil_of_append _ _ _ _ _ h2o' hc⟩
            case _ trs0 c0 st0 hrec => exact absurd h (by simp)
    · -- cache hit
      simp only [test_results_loop, hcr] at h
      split at h
      case _ e0 hrec =>
        obtain ⟨e1, ste⟩ := e0
        simp only [Except.error.injEq, Prod.mk.injEq] at h
        obtain ⟨rfl, rfl⟩ := h
        obtain ⟨new', hout, hsl, hcond⟩ := ih _ _ _ _ hrec
        exact ⟨new', hout, hsl.trans (List.sublist_cons_self _ _), hcond⟩
      case _ trs0 c0 st0 hrec => exact absurd h (by simp)
    · -- MultipleObjectsReturned
      simp only [test_results_loop, hcr] at h
      simp only [Except.error.injEq, Prod.mk.injEq] at h
      obtain ⟨rfl, rfl⟩ := h
      exact ⟨[], by simp, by simp, by simp⟩

/-- A normal return of the `test_results` property restores working
directories and images to what they were. -/
theorem test_results_ok_frames (s : Submission) (adding : Bool) (beh : Behavior)
    (tcs : List TestCase) (st : St) (res : Results) (st' : St)
    (h : test_results s adding beh tcs st = .ok (res, st')) :
    st'.contexts = st.contexts ∧ st'.images = st.images := by
  unfold test_results at h
  split at h
  · simp only [Except.ok.injEq, Prod.mk.injEq] at h
    obtain ⟨rfl, rfl⟩ := h
    exact ⟨rfl, rfl⟩
  · split at h
    · exact absurd h (by simp)
    case _ trs client st1 hloop =>
      split at h
      · -- client still none: the loop never touched docker
        simp only [Except.ok.injEq, Prod.mk.injEq] at h
        obtain ⟨rfl, rfl⟩ := h
        rcases test_results_loop_frames _ _ _ _ _ _ _ _ hloop with ⟨_, hc, hi⟩ | ⟨_, hcl, _⟩
        · exact ⟨hc, hi⟩
        · exact absurd hcl (by simp)
      · -- client = some (some img): the loop prepped once, cleanup undoes it
        simp only [Except.ok.injEq, Prod.mk.injEq] at h
        obtain ⟨rfl, rfl⟩ := h
        rcases test_results_loop_frames _ _ _ _ _ _ _ _ hloop with ⟨hcl, _⟩ | ⟨_, _, hc, hi⟩
        · exact absurd hcl (by simp)
        · constructor
          · simp [docker_cleanup, hc]
          · simp [docker_cleanup, hi]
      · -- client = some none is impossible on a normal return
        exact absurd h (by simp)

/-- Whether the `test_results` property returns or raises, the only
change to the `TestOutput` table is the appending of fresh rows for
previously uncached pairs of this submission. -/
theorem test_results_outputs_any (s : Submission) (adding : Bool) (beh : Behavior)
    (tcs : List TestCase) (st : St) :
    ∃ new : List TestOutput,
      (resState (test_results s adding beh tcs st)).outputs = st.outputs ++ new ∧
      List.Sublist (new.map TestOutput.testcase) (tcs.map TestCase.id) ∧
      ∀ r ∈ new, r.submission = s.pk ∧ cached_rows s.pk r.testcase st = [] := by
  unfold test_results
  split
  · exact ⟨[], by simp [resState], by simp, by simp⟩
  · cases hloop : test_results_loop s.pk beh tcs none st with
    | error e =>
      obtain ⟨e0, st1⟩ := e
      obtain ⟨new, hout, hsl, hcond⟩ := test_results_loop_outputs_err _ _ _ _ _ _ _ hloop
      exact ⟨new, by simp [resState, hout], hsl, hcond⟩
    | ok p =>
      obtain ⟨⟨trs, client⟩, st1⟩ := p
      obtain ⟨new, hout, hsl, hcond⟩ := test_results_loop_outputs_ok _ _ _ _ _ _ _ _ hloop
      rcases client with _ | ⟨_ | img⟩
      · exact ⟨new, by simp [resState, hout], hsl, hcond⟩
      · exact ⟨new, by simp [resState, hout], hsl, hcond⟩
      · exact ⟨new, by simp [resState, docker_cleanup, hout], hsl, hcond⟩

/-- Whether `full_test` returns or raises, the final `TestOutput` table
is this submission's rows deleted, then fresh rows appended for (a
sublist of) the assignment's test cases, all owned by this submission. -/
theorem full_test_outputs_any (pk : SubId) (beh : Behavior) (tcs : List TestCase) (st : St) :
    ∃ new : List TestOutput,
      (resState (full_test pk beh tcs st)).outputs
        = st.outputs.filter (fun r => r.submission ≠ pk) ++ new ∧
      List.Sublist (new.map TestOutput.testcase) (tcs.map TestCase.id) ∧
      ∀ r ∈ new, r.submission = pk := by
  simp only [full_test]
  cases hp : docker_prep pk beh { st with outputs := st.outputs.filter fun r => r.submission ≠ pk } with
  | error e =>
    obtain ⟨e0, st1⟩ := e
    have ho := docker_prep_err _ _ _ _ _ hp
    exact ⟨[], by simp [resState, ho], by simp, by simp⟩
  | ok p =>
    obtain ⟨img, st1⟩ := p
    have hout1 : st1.outputs = st.outputs.filter fun r => r.submission ≠ pk := by
      rcases docker_prep_ok _ _ _ _ _ hp with ⟨_, rfl, _⟩ | ⟨_, rfl, _⟩ <;> rfl
    cases img with
    | none => exact ⟨[], by simp [resState, hout1], by simp, by simp⟩
    | some j =>
      obtain ⟨new, hout, hsl, hsub⟩ := run_all_tests_outputs pk beh (some j) tcs st1
      cases hr : run_all_tests pk beh (some j) tcs st1 with
      | error e =>
        obtain ⟨e0, st2⟩ := e
        rw [hr] at hout
        refine ⟨new, ?_, hsl, hsub⟩
        simp only [resState] at hout
        simp only [hr, resState]
        rw [hout, hout1]
      | ok q =>
        obtain ⟨u, st2⟩ := q
        rw [hr] at hout
        refine ⟨new, ?_, hsl, hsub⟩
        simp only [resState] at hout
        simp only [hr, resState, docker_cleanup]
        rw [hout, hout1]

/-- The uniqueness invariant of the spec: at most one `TestOutput` row
per `(submission, testcase)` pair. -/
def UniqPairs (l : List TestOutput) : Prop :=
  l.Pairwise fun a b => a.submission ≠ b.submission ∨ a.testcase ≠ b.testcase

/-- Appending fresh rows of one submission, with pairwise-distinct test
cases, to a table whose rows never collide with them, keeps the
uniqueness invariant. -/
theorem uniqPairs_append (pk : SubId) (old new : List TestOutput)
    (hold : UniqPairs old)
    (hnodup : (new.map TestOutput.testcase).Nodup)
    (hsub : ∀ r ∈ new, r.submission = pk)
    (hcross : ∀ a ∈ old, ∀ b ∈ new, a.submission ≠ pk ∨ a.testcase ≠ b.testcase) :
    UniqPairs (old ++ new) := by
  rw [UniqPairs, List.pairwise_append]
  refine ⟨hold, ?_, ?_⟩
  · have h2 := (List.pairwise_map).1 hnodup
    exact h2.imp fun hab => Or.inr hab
  · intro a ha b hb
    rcases hcross a ha b hb with h | h
    · exact Or.inl (by rw [hsub b hb]; exact h)
    · exact Or.inr h

/-- Filtering the freshly created rows for a test-case id that none of
them carries yields nothing. -/
theorem fresh_rows_filter_nil (pk : SubId) (out : TcId → String) :
    ∀ (tcs : List TestCase) (t : TcId), t ∉ tcs.map TestCase.id →
      (tcs.map fun tc => (⟨pk, tc.id, out tc.id⟩ : TestOutput)).filter
        (fun r => decide (r.submission = pk) && decide (r.testcase = t)) = [] := by
  intro tcs
  induction tcs with
  | nil => intro t _; rfl
  | cons tc rest ih =>
    intro t ht
    simp only [List.map_cons, List.mem_cons] at ht
    push_neg at ht
    obtain ⟨h1, h2⟩ := ht
    simp only [List.map_cons, List.filter_cons]
    simp [Ne.symm h1, ih t h2]

/-- Filtering the freshly created rows for the id of one of the test
cases, when the ids are pairwise distinct, yields exactly that test
case's row. -/
theorem fresh_rows_filter (pk : SubId) (out : TcId → String) :
    ∀ (tcs : List TestCase) (t : TcId),
      (tcs.map TestCase.id).Nodup → t ∈ tcs.map TestCase.id →
      (tcs.map fun tc => (⟨pk, tc.id, out tc.id⟩ : TestOutput)).filter
        (fun r => decide (r.submission = pk) && decide (r.testcase = t))
        = [⟨pk, t, out t⟩] := by
  intro tcs
  induction tcs with
  | nil => intro t _ ht; simp at ht
  | cons tc rest ih =>
    intro t hnodup ht
    simp only [List.map_cons, List.nodup_cons] at hnodup
    simp only [List.map_cons, List.mem_cons] at ht
    rcases ht with rfl | ht
    · have hnil := fresh_rows_filter_nil pk out rest tc.id hnodup.1
      simp only [List.map_cons, List.filter_cons]
      simp [hnil]
    · have hne : tc.id ≠ t := fun hh => absurd (hh ▸ ht) hnodup.1
      simp only [List.map_cons, List.filter_cons]
      simp [hne, ih t hnodup.2 ht]

/-- The old rows that survive the per-submission deletion never match a
lookup for this submission. -/
theorem old_rows_filter_nil (pk : SubId) (t : TcId) (outs : List TestOutput) :
    (outs.filter fun r => r.submission ≠ pk).filter
      (fun r => decide (r.submission = pk) && decide (r.testcase = t)) = [] := by
  rw [List.filter_eq_nil_iff]
  intro a ha
  have h2 := (List.mem_filter.1 ha).2
  simp only [decide_eq_true_eq] at h2
  simp [h2]

/-! ## Claims -/

/-- C1: for every test case in an evaluation's result set — each entry of
`test_results` is built as `mkResult tc test_output` from the captured
actual output `test_output` — the `passed` field is true iff the actual
output is exactly (case- and whitespace-sensitively) equal to the test
case's expected output.  `passed` is `decide (test_output = tc.output)`,
computed from the two strings alone, independent of the per-character
annotation list. -/
theorem claim1_passed_iff_exact (tc : TestCase) (test_output : String) :
    (mkResult tc test_output).passed = true ↔ test_output = tc.output := by
  simp [mkResult]

/-- C5: for actual output of length `A` and expected output of length `E`,
the annotated output has exactly `A` entries; entry `i` records the
character `actual[i]`, an `incorrect` flag true iff `i ≥ E` or
`actual[i] ≠ expected[i]`, and a `newline` flag true iff
`actual[i] = '\n'`; and `missing_output = E - A` as a signed integer,
never clamped. -/
theorem claim5_comparator (tc : TestCase) (test_output : String) (i : Nat)
    (h : i < test_output.toList.length) :
    (mkResult tc test_output).output.length = test_output.toList.length ∧
    (mkResult tc test_output).missing_output =
      (tc.output.toList.length : Int) - (test_output.toList.length : Int) ∧
    ((mkResult tc test_output).output.getD i default).char = test_output.toList.getD i default ∧
    (((mkResult tc test_output).output.getD i default).incorrect = true ↔
      (tc.output.toList.length ≤ i ∨
        test_output.toList.getD i default ≠ tc.output.toList.getD i default)) ∧
    (((mkResult tc test_output).output.getD i default).newline = true ↔
      test_output.toList.getD i default = '\n') := by
  have hlen : (annotate test_output.toList tc.output.toList).length = test_output.toList.length := by
    simp [annotate]
  have hget : (annotate test_output.toList tc.output.toList).getD i default =
      { char := test_output.toList.getD i default
        incorrect := decide (tc.output.toList.length ≤ i) ||
          decide (test_output.toList.getD i default ≠ tc.output.toList.getD i default)
        newline := decide (test_output.toList.getD i default = '\n') } := by
    simp only [annotate, List.getD_eq_getElem?_getD, List.getElem?_map,
      List.getElem?_range h, Option.map_some', Option.getD_some]
  refine ⟨hlen, rfl, ?_, ?_, ?_⟩
  · show ((annotate test_output.toList tc.output.toList).getD i default).char = _
    rw [hget]
  · show ((annotate test_output.toList tc.output.toList).getD i default).incorrect = true ↔ _
    rw [hget]
    simp
  · show ((annotate test_output.toList tc.output.toList).getD i default).newline = true ↔ _
    rw [hget]
    simp

/-- C5 witness: scenario D — expected `"5\n"`, actual `"55\n"`; entry 2
(beyond the expected length) is marked incorrect. -/
theorem claim5_witness :
    ((mkResult tcD "55\n").output.getD 2 default).incorrect = true :=
  ((claim5_comparator tcD "55\n" 2 (by decide)).2.2.2.1).mpr (Or.inl (by decide))

/-- C2 counterexample: a program still running when the 5 s wait budget
expires.  `single_test` raises the read-timeout error of
`container.wait(timeout=5)` — there is no `try`/`except`, no `stop`, no
`kill` and no `remove` on this path — so the run ends in an error state
in which the container is still live (`containersLive = 1`, never
removed) and still running (`containersRunning = 1`, never stopped), no
output was captured or compared, and the evaluation is aborted by the
propagating exception rather than continuing.  This refutes every part
of the claim: the instance is not forcibly stopped, the partial output
is not compared, the timeout is a distinct error class, and the instance
is not removed. -/
theorem claim2_counterexample :
    single_test 1 behHang (some 1) tcA stEmpty =
      .error (.waitTimeout, ⟨[], [], [], 1, 1, 1⟩) := rfl

/-- C2 amended: when a test-case execution exceeds the 5 s wall-clock
bound, the `wait` call raises a read-timeout error that propagates and
aborts the evaluation (timeout IS a distinct error class at this layer);
the sandbox instance is neither stopped nor removed — it stays running —
and no output is captured, compared or cached.  Only when the program
finishes within the bound is the output captured and cached and the
instance removed. -/
theorem claim2_amended_timeout_semantics (pk : SubId) (beh : Behavior) (img : SubId)
    (tc : TestCase) (st : St) :
    (beh.exec tc.id = .hang →
      single_test pk beh (some img) tc st =
        .error (.waitTimeout,
          { st with
            containersLive := st.containersLive + 1
            containersStarted := st.containersStarted + 1
            containersRunning := st.containersRunning + 1 })) ∧
    (∀ out, beh.exec tc.id = .finished out →
      single_test pk beh (some img) tc st =
        .ok (out,
          { st with
            containersStarted := st.containersStarted + 1
            outputs := st.outputs ++ [⟨pk, tc.id, out⟩] })) := by
  constructor
  · intro h
    simp [single_test, h]
  · intro out h
    simp [single_test, h]

/-- C2 witness: both branches of the amended claim at concrete inputs —
a hanging program leaves a live, running container behind an error; a
terminating program yields its output, a removed container and a cached
row. -/
theorem claim2_witness :
    single_test 2 behHang (some 2) tcA stEmpty =
      .error (.waitTimeout, ⟨[], [], [], 1, 1, 1⟩) ∧
    single_test 2 behOk (some 2) tcA stEmpty =
      .ok ("7\n", ⟨[⟨2, 1, "7\n"⟩], [], [], 0, 1, 0⟩) :=
  ⟨(claim2_amended_timeout_semantics 2 behHang 2 tcA stEmpty).1 rfl,
   (claim2_amended_timeout_semantics 2 behOk 2 tcA stEmpty).2 "7\n" rfl⟩

/-- C3 counterexample: two exit paths on which created resources are not
removed.  If the image build fails after a successful compile,
`full_test` raises and the working directory `context-1` survives
(`contexts = [1]`).  If a test-case execution exceeds the wait budget,
`full_test` raises and both the working directory and the built image
survive (`contexts = [1]`, `images = [1]`) — there is no `try`/`finally`
around either entry point. -/
theorem claim3_counterexample :
    full_test 1 behBuildFail [tcA] stEmpty = .error (.buildFail, ⟨[], [1], [], 0, 0, 0⟩) ∧
    full_test 1 behHang [tcA] stEmpty = .error (.waitTimeout, ⟨[], [1], [1], 1, 1, 1⟩) :=
  ⟨rfl, rfl⟩

/-- C3 amended: both evaluation entry points remove the working directory
and the built image on every exit path on which they return normally
(including the compile-failure path, where `docker_prep` itself removes
the directory it created and no image exists); but on the raising exit
paths — image-build failure, or a test-case execution failure — no
cleanup runs, and the working directory (and for an execution failure
also the image) survives, as the counterexample shows. -/
theorem claim3_amended_cleanup (beh : Behavior) (tcs : List TestCase) (st : St) :
    (∀ (pk : SubId) (b : Bool) (st' : St),
      full_test pk beh tcs st = .ok (b, st') →
      st'.contexts = st.contexts ∧ st'.images = st.images) ∧
    (∀ (s : Submission) (adding : Bool) (res : Results) (st' : St),
      test_results s adding beh tcs st = .ok (res, st') →
      st'.contexts = st.contexts ∧ st'.images = st.images) := by
  constructor
  · intro pk b st' h
    obtain ⟨_, hc, hi, _⟩ := full_test_ok_cases _ _ _ _ _ _ h
    exact ⟨hc, hi⟩
  · intro s adding res st' h
    exact test_results_ok_frames _ _ _ _ _ _ _ h

/-- C3 witness: a fully successful `full_test` run from an empty world
ends with no working directory and no image. -/
theorem claim3_witness :
    (⟨[⟨3, 1, "7\n"⟩], [], [], 0, 1, 0⟩ : St).contexts = stEmpty.contexts ∧
    (⟨[⟨3, 1, "7\n"⟩], [], [], 0, 1, 0⟩ : St).images = stEmpty.images :=
  (claim3_amended_cleanup behOk [tcA] stEmpty).1 3 true
    ⟨[⟨3, 1, "7\n"⟩], [], [], 0, 1, 0⟩ rfl

/-- C4: when the source fails to compile (non-zero exit, timeout or
compiler crash — all absorbed by the bare `except:`), a full evaluation
sets `compiles` to `false`, starts zero containers, creates zero
`TestOutput` rows (it only deletes this submission's old ones), and
fully removes the working directory it created. -/
theorem claim4_compile_failure (s : Submission) (beh : Behavior) (tcs : List TestCase)
    (st : St) (hc : beh.compileOk = false) (hctx : s.pk ∉ st.contexts) :
    ∃ st' : St,
      save s beh tcs true st = .ok ({ s with compiles := false }, st') ∧
      st'.containersStarted = st.containersStarted ∧
      st'.containersLive = st.containersLive ∧
      st'.outputs = st.outputs.filter (fun r => r.submission ≠ s.pk) ∧
      st'.contexts = st.contexts ∧ s.pk ∉ st'.contexts ∧
      st'.images = st.images := by
  refine ⟨{ st with outputs := st.outputs.filter fun r => r.submission ≠ s.pk },
    ?_, rfl, rfl, rfl, rfl, hctx, rfl⟩
  simp [save, full_test, docker_prep, hc, hctx]

/-- C4 witness: a non-compiling submission saved into an empty world. -/
theorem claim4_witness :
    ∃ st' : St,
      save ⟨7, true⟩ behBad [tcA] true stEmpty = .ok (⟨7, false⟩, st') ∧
      st'.containersStarted = stEmpty.containersStarted ∧
      st'.containersLive = stEmpty.containersLive ∧
      st'.outputs = stEmpty.outputs.filter (fun r => r.submission ≠ (7 : SubId)) ∧
      st'.contexts = stEmpty.contexts ∧ (7 : SubId) ∉ st'.contexts ∧
      st'.images = stEmpty.images :=
  claim4_compile_failure ⟨7, true⟩ behBad [tcA] stEmpty rfl (by decide)

/-- C6: saving an edit to an existing test case's `input`/`output` text
deletes exactly the `TestOutput` rows whose `testcase` foreign key
references that test case, across all submissions, and no row
referencing any other test case. -/
theorem claim6_testcase_invalidation (tcId : TcId) (st : St) (r : TestOutput) :
    r ∈ (testcase_edit_invalidate tcId st).outputs ↔
      r ∈ st.outputs ∧ r.testcase ≠ tcId := by
  simp [testcase_edit_invalidate, List.mem_filter]

/-- C7 counterexample: `compiles` is a plain Boolean column with no
representable "unknown" value, and after a source replacement it does not
hold any fixed reset marker either: the flow triggered by
`save(update_fields=['source_file'])` synchronously re-evaluates and
stores the fresh compile outcome, so the flag is `true` after replacing
with a compiling source and `false` after replacing with a non-compiling
one — it is the fresh outcome, not an "unknown". -/
theorem claim7_counterexample :
    (replace_source ⟨5, false⟩ behOk [tcA] stEmpty).toOption.map
      (fun p => p.1.compiles) = some true ∧
    (replace_source ⟨5, false⟩ behBad [tcA] stEmpty).toOption.map
      (fun p => p.1.compiles) = some false :=
  ⟨rfl, rfl⟩

/-- C7 amended: replacing a submission's source artifact deletes exactly
that submission's CachedResults — every surviving old row belongs to
another submission, and rows of other submissions are untouched — and
then synchronously overwrites `compiles` with the outcome of the fresh
full evaluation (the model has no "unknown" state; fresh rows of this
submission are inserted when the new source compiles). -/
theorem claim7_amended_replace_source (s : Submission) (beh : Behavior)
    (tcs : List TestCase) (st : St) (s' : Submission) (st' : St)
    (h : replace_source s beh tcs st = .ok (s', st')) :
    s'.compiles = beh.compileOk ∧
    ∃ fresh : List TestOutput,
      st'.outputs = st.outputs.filter (fun r => r.submission ≠ s.pk) ++ fresh ∧
      ∀ r ∈ fresh, r.submission = s.pk := by
  obtain ⟨hf, hpk⟩ := save_ok _ _ _ _ _ _ h
  obtain ⟨hb, _, _, _, new, ho, hsub, _⟩ := full_test_ok_cases _ _ _ _ _ _ hf
  exact ⟨hb, new, ho, hsub⟩

/-- C7 witness: replacing the source of submission 5 with a compiling one
in an empty world. -/
theorem claim7_witness :
    (⟨5, true⟩ : Submission).compiles = behOk.compileOk ∧
    ∃ fresh : List TestOutput,
      (⟨[⟨5, 1, "7\n"⟩], [], [], 0, 1, 0⟩ : St).outputs =
        stEmpty.outputs.filter (fun r => r.submission ≠ (5 : SubId)) ++ fresh ∧
      ∀ r ∈ fresh, r.submission = (5 : SubId) :=
  claim7_amended_replace_source ⟨5, false⟩ behOk [tcA] stEmpty ⟨5, true⟩
    ⟨[⟨5, 1, "7\n"⟩], [], [], 0, 1, 0⟩ rfl

/-- C8: after a completed full evaluation (compile and build succeeded,
every program terminated within the bound) with no intervening source or
test-case edit, the lazy `test_results` property finds every pair cached:
it performs zero container executions — the final state is exactly the
state `st1` the full evaluation left, no counter moves — and returns the
comparator applied to precisely the outputs the full evaluation captured
and cached. -/
theorem claim8_lazy_after_full (s : Submission) (beh : Behavior) (out : TcId → String)
    (tcs : List TestCase) (st : St)
    (hc : beh.compileOk = true) (hb : beh.buildOk = true)
    (hexec : ∀ tc ∈ tcs, beh.exec tc.id = .finished (out tc.id))
    (hndup : (tcs.map TestCase.id).Nodup)
    (hctx : s.pk ∉ st.contexts) :
    ∃ st1 : St,
      full_test s.pk beh tcs st = .ok (true, st1) ∧
      test_results { s with compiles := true } false beh tcs st1 =
        .ok ({ compiles := true,
               tests := tcs.map fun tc => mkResult tc (out tc.id) }, st1) := by
  refine ⟨_, full_test_success s.pk beh out tcs st hc hb hexec hctx, ?_⟩
  have hhit : ∀ tc ∈ tcs, cached_rows s.pk tc.id
      { st with
        outputs := st.outputs.filter (fun r => r.submission ≠ s.pk)
          ++ tcs.map fun tc => ⟨s.pk, tc.id, out tc.id⟩,
        containersStarted := st.containersStarted + tcs.length }
      = [⟨s.pk, tc.id, out tc.id⟩] := by
    intro tc htc
    show ((st.outputs.filter fun r => r.submission ≠ s.pk)
        ++ tcs.map fun tc' => (⟨s.pk, tc'.id, out tc'.id⟩ : TestOutput)).filter
        (fun r => decide (r.submission = s.pk) && decide (r.testcase = tc.id)) = _
    rw [List.filter_append, old_rows_filter_nil,
      fresh_rows_filter s.pk out tcs tc.id hndup (List.mem_map_of_mem _ htc)]
    rfl
  have hloop := test_results_loop_all_hits s.pk beh out tcs none _ hhit
  unfold test_results
  rw [hloop]
  rfl

/-- C8 witness: one test case, full evaluation then lazy read, from an
empty world. -/
theorem claim8_witness :
    ∃ st1 : St,
      full_test 3 behOk [tcA] stEmpty = .ok (true, st1) ∧
      test_results ⟨3, true⟩ false behOk [tcA] st1 =
        .ok ({ compiles := true,
               tests := [tcA].map fun tc => mkResult tc "7\n" }, st1) :=
  claim8_lazy_after_full ⟨3, false⟩ behOk (fun _ => "7\n") [tcA] stEmpty rfl rfl
    (fun tc _ => rfl) (by decide) (by decide)

/-- C9: every core operation — eager full evaluation, lazy on-demand
evaluation, the test-case-edit invalidation trigger, a save with test
running, and the source-replacement flow — preserves the invariant that
at most one `TestOutput` row exists per `(submission, testcase)` pair
(whether the operation returns or raises). -/
theorem claim9_unique_pair_invariant (s : Submission) (beh : Behavior)
    (tcs : List TestCase) (st : St) (tcId : TcId) (adding : Bool)
    (hU : UniqPairs st.outputs) (hndup : (tcs.map TestCase.id).Nodup) :
    UniqPairs (resState (full_test s.pk beh tcs st)).outputs ∧
    UniqPairs (resState (test_results s adding beh tcs st)).outputs ∧
    UniqPairs (testcase_edit_invalidate tcId st).outputs ∧
    UniqPairs (resState (save s beh tcs true st)).outputs ∧
    UniqPairs (resState (replace_source s beh tcs st)).outputs := by
  have hfull : UniqPairs (resState (full_test s.pk beh tcs st)).outputs := by
    obtain ⟨new, hout, hsl, hsub⟩ := full_test_outputs_any s.pk beh tcs st
    rw [hout]
    refine uniqPairs_append s.pk _ _ (hU.filter _) (hndup.sublist hsl) hsub ?_
    intro a ha b hb
    left
    have h2 := (List.mem_filter.1 ha).2
    simpa using h2
  have htr : UniqPairs (resState (test_results s adding beh tcs st)).outputs := by
    obtain ⟨new, hout, hsl, hcond⟩ := test_results_outputs_any s adding beh tcs st
    rw [hout]
    refine uniqPairs_append s.pk _ _ hU (hndup.sublist hsl)
      (fun r hr => (hcond r hr).1) ?_
    intro a ha b hb
    by_cases hsb : a.submission = s.pk
    · by_cases htc : a.testcase = b.testcase
      · exfalso
        have hc := (hcond b hb).2
        have hmem : a ∈ cached_rows s.pk b.testcase st := by
          simp [cached_rows, List.mem_filter, ha, hsb, htc]
        rw [hc] at hmem
        simp at hmem
      · exact Or.inr htc
    · exact Or.inl hsb
  refine ⟨hfull, htr, hU.filter _, ?_, ?_⟩
  · rw [resState_save]
    exact hfull
  · rw [show replace_source s beh tcs st = save s beh tcs true st from rfl, resState_save]
    exact hfull

/-- C9 witness: the invariant holds after each operation run from an
empty world (where it holds trivially) with one test case. -/
theorem claim9_witness :
    UniqPairs (resState (full_test 9 behOk [tcA] stEmpty)).outputs ∧
    UniqPairs (resState (test_results ⟨9, false⟩ false behOk [tcA] stEmpty)).outputs ∧
    UniqPairs (testcase_edit_invalidate 1 stEmpty).outputs ∧
    UniqPairs (resState (save ⟨9, false⟩ behOk [tcA] true stEmpty)).outputs ∧
    UniqPairs (resState (replace_source ⟨9, false⟩ behOk [tcA] stEmpty)).outputs :=
  claim9_unique_pair_invariant ⟨9, false⟩ behOk [tcA] stEmpty 1 false
    List.Pairwise.nil (by decide)

/-- C10 counterexample: a save of a submission whose fresh source fails
to compile.  The save returns normally, deletes the old rows and
overwrites `compiles`, but starts zero containers although the
assignment has one test case: "re-runs every test case of the
assignment" fails on this save, because `full_test` runs the test loop
only when the fresh compile succeeds. -/
theorem claim10_counterexample :
    save ⟨6, true⟩ behBad [tcA] true stEmpty = .ok (⟨6, false⟩, stEmpty) ∧
    stEmpty.containersStarted ≠ stEmpty.containersStarted + [tcA].length :=
  ⟨rfl, by decide⟩

/-- C10 amended: every save of a Submission with test running enabled
(the default) that returns normally synchronously deletes all of that
submission's existing CachedResults, recompiles the source, re-runs
every test case of the assignment exactly when the fresh compilation
succeeds (and none when it fails), and overwrites `compiles` with the
new compilation outcome. -/
theorem claim10_amended_save (s : Submission) (beh : Behavior) (tcs : List TestCase)
    (st : St) (s' : Submission) (st' : St)
    (h : save s beh tcs true st = .ok (s', st')) :
    s'.compiles = beh.compileOk ∧
    st'.containersStarted
      = st.containersStarted + (if beh.compileOk then tcs.length else 0) ∧
    ∃ fresh : List TestOutput,
      st'.outputs = st.outputs.filter (fun r => r.submission ≠ s.pk) ++ fresh ∧
      (∀ r ∈ fresh, r.submission = s.pk) ∧
      (beh.compileOk = true → fresh.map TestOutput.testcase = tcs.map TestCase.id) ∧
      (beh.compileOk = false → fresh = []) := by
  obtain ⟨hf, _⟩ := save_ok _ _ _ _ _ _ h
  obtain ⟨hb, _, _, hs, new, ho, hsub, hmap, hnil⟩ := full_test_ok_cases _ _ _ _ _ _ hf
  refine ⟨hb, ?_, new, ho, hsub,
    fun hh => hmap (hb.trans hh), fun hh => hnil (hb.trans hh)⟩
  rw [hs, hb]

/-- C10 witness: a save with a compiling source from an empty world runs
the single test case and caches its row. -/
theorem claim10_witness :
    (⟨6, true⟩ : Submission).compiles = behOk.compileOk ∧
    (⟨[⟨6, 1, "7\n"⟩], [], [], 0, 1, 0⟩ : St).containersStarted
      = stEmpty.containersStarted + (if behOk.compileOk then [tcA].length else 0) ∧
    ∃ fresh : List TestOutput,
      (⟨[⟨6, 1, "7\n"⟩], [], [], 0, 1, 0⟩ : St).outputs
        = stEmpty.outputs.filter (fun r => r.submission ≠ (6 : SubId)) ++ fresh ∧
      (∀ r ∈ fresh, r.submission = (6 : SubId)) ∧
      (behOk.compileOk = true → fresh.map TestOutput.testcase = [tcA].map TestCase.id) ∧
      (behOk.compileOk = false → fresh = []) :=
  claim10_amended_save ⟨6, false⟩ behOk [tcA] stEmpty ⟨6, true⟩
    ⟨[⟨6, 1, "7\n"⟩], [], [], 0, 1, 0⟩ rfl

end Autograder
